import Mathlib

/-!
Shallow embedding of the color-extraction core of `src/App.tsx`
(the "Find My Color" app): the dominant-color extractor `extractColors`
and the point sampler `getColorAtPoint`, together with the hex
formatting `#${((1 << 24) + (r << 16) + (g << 8) + b).toString(16).slice(1)}`
shared by both.
-/

namespace ColorApp

/-- A decoded image: `width`/`height` in pixels and the row-major RGBA
sample grid that `ctx.getImageData` returns (each channel a byte 0..255;
the flat `Uint8ClampedArray` of length `4·width·height` is modelled as a
list of 4-tuples, one per pixel, exactly as the source's loop
`for (i = 0; i < imageData.length; i += 4)` consumes it). -/
structure PixelBuffer where
  width : Nat
  height : Nat
  samples : List (Nat × Nat × Nat × Nat)
deriving DecidableEq

/-- One palette entry, the source's `{ hex, percentage }` object.
Percentages are modelled in exact rational arithmetic. -/
structure Color where
  hex : String
  percentage : ℚ
deriving DecidableEq

/-- Numeric value of one lowercase hex digit character, inverse of
`Nat.digitChar` on `0..15`. -/
def hexVal (c : Char) : Nat :=
  if c.isDigit then c.toNat - 48 else c.toNat - 87

/-- Is `c` one of the characters `Number.prototype.toString(16)` can emit
for a digit (`0`-`9`, `a`-`f`)? -/
def isHexDigitChar (c : Char) : Bool :=
  c.isDigit || ('a' ≤ c && c ≤ 'f')

/-- Fuel-driven big-endian base-16 digit rendering: embeds the digit loop
of JavaScript `Number.prototype.toString(16)` for nonnegative integers.
`acc` holds already-produced low-order digit characters. -/
def hexCharsAux : Nat → Nat → List Char → List Char
  | 0, _, acc => acc
  | fuel + 1, n, acc =>
    if n < 16 then Nat.digitChar n :: acc
    else hexCharsAux fuel (n / 16) (Nat.digitChar (n % 16) :: acc)

/-- The character list of `n.toString(16)` in JavaScript (for natural `n`):
lowercase hex digits, most significant first, no leading zeros. -/
def hexChars (n : Nat) : List Char :=
  hexCharsAux (n + 1) n []

/-- The 24-bit value `(1 << 24) + (r << 16) + (g << 8) + b` the source
builds before hex-formatting (for byte channels the JS 32-bit shifts are
exact arithmetic). -/
def encVal (r g b : Nat) : Nat :=
  2 ^ 24 + r * 2 ^ 16 + g * 2 ^ 8 + b

/-- The source's hex formatting, used verbatim by both `extractColors`
(lines 56-58) and `getColorAtPoint` (lines 141-148):
`` `#${((1 << 24) + (r << 16) + (g << 8) + b).toString(16).slice(1)}` ``.
The alpha channel is never consulted. -/
def toHex (r g b : Nat) : String :=
  ⟨'#' :: (hexChars (encVal r g b)).drop 1⟩

/-- Big-endian base-16 read-back of a digit-character list
(`foldl` accumulating `16*a + digit`). Used to state that a hex string
encodes a unique number. -/
def ofHex (l : List Char) : Nat :=
  l.foldl (fun a c => 16 * a + hexVal c) 0

/-- Decode a `#rrggbb` string back to its `(r, g, b)` triple. -/
def decodeColor (s : String) : Nat × Nat × Nat :=
  let v := ofHex (s.data.drop 1)
  (v / 65536 % 256, v / 256 % 256, v % 256)

/-- The hex key of every pixel of the buffer, in row-major scan order:
the sequence of keys the source's `for (i = 0; i += 4)` loop computes
from `imageData` (lines 52-58); `imageData[i+3]` (alpha) is ignored. -/
def pixelHexList (buf : PixelBuffer) : List String :=
  buf.samples.map fun p => toHex p.1 p.2.1 p.2.2.1

/-- `colorMap.set(hex, (colorMap.get(hex) || 0) + 1)` on an association
list that models a JS `Map`: an existing key is bumped in place, a new
key is appended, so the key order is first-insertion order exactly as a
`Map`'s iteration order is. -/
def bump (hex : String) : List (String × Nat) → List (String × Nat)
  | [] => [(hex, 1)]
  | (k, c) :: rest => if k = hex then (k, c + 1) :: rest else (k, c) :: bump hex rest

/-- The frequency map the source builds in lines 49-60. -/
def colorMap (buf : PixelBuffer) : List (String × Nat) :=
  (pixelHexList buf).foldl (fun m h => bump h m) []

/-- `totalPixels = imageData.length / 4` (line 50): with samples stored
one 4-tuple per pixel this is the sample count. -/
def totalPixels (buf : PixelBuffer) : Nat :=
  buf.samples.length

/-- `Array.from(colorMap.entries()).map(([hex, count]) => ({hex,
percentage: (count / totalPixels) * 100}))` (lines 62-66): the full,
untruncated histogram in first-insertion order. -/
def colorEntries (buf : PixelBuffer) : List Color :=
  (colorMap buf).map fun kc => ⟨kc.1, (kc.2 : ℚ) / (totalPixels buf : ℚ) * 100⟩

/-- One step of a stable descending insertion sort: `a` is placed before
the first element whose percentage is not strictly greater, so it lands
after every earlier element with percentage ≥ its own. -/
def insertDesc (a : Color) : List Color → List Color
  | [] => [a]
  | b :: l => if a.percentage < b.percentage then b :: insertDesc a l else a :: b :: l

/-- Stable sort by descending percentage. `Array.prototype.sort` with the
comparator `(a, b) => b.percentage - a.percentage` (line 67) is required
by ECMAScript 2019+ to be stable, and the stable sort of a list under a
total preorder is unique, so this insertion sort has exactly the
observable behavior of the source's sort call. -/
def sortColorsDesc : List Color → List Color
  | [] => []
  | a :: l => insertDesc a (sortColorsDesc l)

/-- `extractColors` (lines 37-71), as a function of the decoded pixel
buffer: histogram, percentages, stable descending sort, `.slice(0, 6)`. -/
def extractColors (buf : PixelBuffer) : List Color :=
  (sortColorsDesc (colorEntries buf)).take 6

/-- First-occurrence deduplication worker: keeps a key the first time it
is seen, skips keys already in `seen`. -/
def dedupFirstGo : List String → List String → List String
  | [], _ => []
  | a :: t, seen => if a ∈ seen then dedupFirstGo t seen else a :: dedupFirstGo t (a :: seen)

/-- The distinct keys of a list in order of first occurrence — the key
set of a JS `Map` filled by a left-to-right scan. -/
def dedupFirst (l : List String) : List String :=
  dedupFirstGo l []

/-- The distinct exact colors of a buffer (as hex keys), in row-major
first-occurrence order. -/
def distinctColors (buf : PixelBuffer) : List String :=
  dedupFirst (pixelHexList buf)

/-- Index of the first occurrence of `s` in a list (length of the list
when absent): position of a color's first pixel in scan order. -/
def idxOf (s : String) : List String → Nat
  | [] => 0
  | a :: l => if a = s then 0 else idxOf s l + 1

/-- Truncation toward zero of a rational, as WebIDL converts a finite
JavaScript number to the `long` arguments of `getImageData`. -/
def jsTrunc (q : ℚ) : ℤ :=
  if 0 ≤ q then ⌊q⌋ else -⌊-q⌋

/-- The source coordinates the sampler reads (lines 133-140):
`scaleX = naturalWidth / rect.width`, then `getImageData(x * scaleX,
y * scaleY, 1, 1)` truncates each coordinate to an integer. -/
def srcCoord (buf : PixelBuffer) (x y rectW rectH : ℚ) : ℤ × ℤ :=
  let scaleX : ℚ := (buf.width : ℚ) / rectW
  let scaleY : ℚ := (buf.height : ℚ) / rectH
  (jsTrunc (x * scaleX), jsTrunc (y * scaleY))

/-- The pixel at column `x`, row `y` of the row-major grid (default
RGBA `(0,0,0,0)` when the index is out of range). -/
def pixelAt (buf : PixelBuffer) (x y : Nat) : Nat × Nat × Nat × Nat :=
  buf.samples.getD (y * buf.width + x) (0, 0, 0, 0)

/-- `ctx.getImageData(sx, sy, 1, 1).data` on the canvas holding the
image: per the HTML canvas specification, a requested pixel outside the
canvas bitmap is transparent black `(0,0,0,0)`. -/
def readPixel (buf : PixelBuffer) (sx sy : ℤ) : Nat × Nat × Nat × Nat :=
  if 0 ≤ sx ∧ sx < (buf.width : ℤ) ∧ 0 ≤ sy ∧ sy < (buf.height : ℤ) then
    pixelAt buf sx.toNat sy.toNat
  else (0, 0, 0, 0)

/-- `getColorAtPoint` (lines 125-155), as a function of the buffer, the
click position `(x, y)` relative to the rendered element, and the
rendered size `rect.width × rect.height`: map to source coordinates,
read one pixel, format it with the shared hex formula. -/
def getColorAtPoint (buf : PixelBuffer) (x y rectW rectH : ℚ) : String :=
  let sc := srcCoord buf x y rectW rectH
  let p := readPixel buf sc.1 sc.2
  toHex p.1 p.2.1 p.2.2.1

/-- Boolean test used to state sort stability: does the entry carry
percentage `q`? -/
def pctIs (q : ℚ) (z : Color) : Bool :=
  decide (z.percentage = q)

/-- Total percentage of a palette list. -/
def sumPct (l : List Color) : ℚ :=
  (l.map Color.percentage).sum

/-- A 2×2 buffer of opaque white pixels, used as a concrete test image. -/
def whiteBuf : PixelBuffer :=
  ⟨2, 2, [(255, 255, 255, 255), (255, 255, 255, 255),
    (255, 255, 255, 255), (255, 255, 255, 255)]⟩

/-- A 2×1 buffer whose two pixels have distinct colors with equal
counts: a tie between `#010000` (first) and `#000000` (second). -/
def tieBuf : PixelBuffer :=
  ⟨2, 1, [(1, 0, 0, 255), (0, 0, 0, 255)]⟩

/-- A 3×4 buffer whose pixel at column 2, row 3 is RGB(10,20,30). -/
def demoBuf : PixelBuffer :=
  ⟨3, 4, [(1, 2, 3, 255), (1, 2, 3, 255), (1, 2, 3, 255), (1, 2, 3, 255),
    (1, 2, 3, 255), (1, 2, 3, 255), (1, 2, 3, 255), (1, 2, 3, 255),
    (1, 2, 3, 255), (1, 2, 3, 255), (1, 2, 3, 255), (10, 20, 30, 255)]⟩

/-- A 100×100 all-black buffer. -/
def bigBuf : PixelBuffer :=
  ⟨100, 100, List.replicate 10000 (0, 0, 0, 0)⟩

/-- A 3×1 buffer with two black pixels and one white pixel. -/
def rampBuf : PixelBuffer :=
  ⟨3, 1, [(0, 0, 0, 255), (0, 0, 0, 255), (255, 255, 255, 255)]⟩

/-! ### Lemmas about the stable descending sort -/

/-- Membership in an insertion step. -/
theorem mem_insertDesc {x a : Color} {l : List Color} :
    x ∈ insertDesc a l ↔ x = a ∨ x ∈ l := by
  induction l with
  | nil => simp [insertDesc]
  | cons b t ih =>
    by_cases h : a.percentage < b.percentage
    · simp only [insertDesc, if_pos h, List.mem_cons, ih]
      tauto
    · simp only [insertDesc, if_neg h, List.mem_cons]

/-- Inserting permutes to a cons. -/
theorem insertDesc_perm (a : Color) (l : List Color) :
    List.Perm (insertDesc a l) (a :: l) := by
  induction l with
  | nil => exact List.Perm.refl _
  | cons b t ih =>
    by_cases h : a.percentage < b.percentage
    · simp only [insertDesc, if_pos h]
      exact (ih.cons b).trans (List.Perm.swap a b t)
    · simp only [insertDesc, if_neg h]
      exact List.Perm.refl _

/-- The sort permutes its input: nothing is added, dropped or changed. -/
theorem sortColorsDesc_perm (l : List Color) : List.Perm (sortColorsDesc l) l := by
  induction l with
  | nil => exact List.Perm.refl _
  | cons a t ih => exact (insertDesc_perm a (sortColorsDesc t)).trans (ih.cons a)

/-- Insertion preserves descending-percentage ordering. -/
theorem pairwise_insertDesc {a : Color} {l : List Color}
    (h : l.Pairwise fun x y => y.percentage ≤ x.percentage) :
    (insertDesc a l).Pairwise fun x y => y.percentage ≤ x.percentage := by
  induction l with
  | nil => simp [insertDesc]
  | cons b t ih =>
    rw [List.pairwise_cons] at h
    obtain ⟨hb, ht⟩ := h
    by_cases hab : a.percentage < b.percentage
    · simp only [insertDesc, if_pos hab, List.pairwise_cons]
      refine ⟨?_, ih ht⟩
      intro y hy
      rcases mem_insertDesc.mp hy with rfl | hyt
      · exact le_of_lt hab
      · exact hb y hyt
    · simp only [insertDesc, if_neg hab, List.pairwise_cons]
      refine ⟨?_, hb, ht⟩
      intro y hy
      rcases List.mem_cons.mp hy with rfl | hyt
      · exact not_lt.mp hab
      · exact le_trans (hb y hyt) (not_lt.mp hab)

/-- The sorted list is ordered by non-increasing percentage. -/
theorem sortColorsDesc_sorted (l : List Color) :
    (sortColorsDesc l).Pairwise fun x y => y.percentage ≤ x.percentage := by
  induction l with
  | nil => simp [sortColorsDesc]
  | cons a t ih => exact pairwise_insertDesc ih

/-- The test holds exactly on entries of percentage `q`. -/
theorem pctIs_eq_true {q : ℚ} {z : Color} : pctIs q z = true ↔ z.percentage = q := by
  simp [pctIs]

/-- Stability of one insertion step: among the entries of a fixed
percentage `q`, an inserted entry with percentage `q` goes first and
nothing else moves. -/
theorem filter_insertDesc (a : Color) (l : List Color) (q : ℚ) :
    (insertDesc a l).filter (pctIs q) =
      if a.percentage = q then a :: l.filter (pctIs q) else l.filter (pctIs q) := by
  induction l with
  | nil => by_cases h : a.percentage = q <;> simp [insertDesc, List.filter, pctIs, h]
  | cons b t ih =>
    by_cases hab : a.percentage < b.percentage
    · simp only [insertDesc, if_pos hab]
      by_cases haq : a.percentage = q
      · have hbq : ¬ b.percentage = q := by rw [← haq]; exact ne_of_gt hab
        have hbq2 : ¬ (pctIs q b = true) := by simp [pctIs, hbq]
        rw [List.filter_cons_of_neg hbq2, ih, if_pos haq, if_pos haq,
          List.filter_cons_of_neg hbq2]
      · rw [if_neg haq]
        by_cases hbq : b.percentage = q
        · have hbq2 : pctIs q b = true := by simp [pctIs, hbq]
          rw [List.filter_cons_of_pos hbq2, List.filter_cons_of_pos hbq2, ih,
            if_neg haq]
        · have hbq2 : ¬ (pctIs q b = true) := by simp [pctIs, hbq]
          rw [List.filter_cons_of_neg hbq2, List.filter_cons_of_neg hbq2, ih,
            if_neg haq]
    · simp only [insertDesc, if_neg hab]
      by_cases haq : a.percentage = q
      · have haq2 : pctIs q a = true := by simp [pctIs, haq]
        rw [List.filter_cons_of_pos haq2, if_pos haq]
      · have haq2 : ¬ (pctIs q a = true) := by simp [pctIs, haq]
        rw [List.filter_cons_of_neg haq2, if_neg haq]

/-- Stability of the sort: the subsequence of entries having any fixed
percentage is exactly their original subsequence, in original order. -/
theorem sortColorsDesc_filter (l : List Color) (q : ℚ) :
    (sortColorsDesc l).filter (pctIs q) = l.filter (pctIs q) := by
  induction l with
  | nil => rfl
  | cons a t ih =>
    simp only [sortColorsDesc, filter_insertDesc, ih]
    by_cases haq : a.percentage = q
    · have haq2 : pctIs q a = true := by simp [pctIs, haq]
      rw [if_pos haq, List.filter_cons_of_pos haq2]
    · have haq2 : ¬ (pctIs q a = true) := by simp [pctIs, haq]
      rw [if_neg haq, List.filter_cons_of_neg haq2]

/-! ### Lemmas about the frequency map -/

/-- Keys after a bump: an existing key leaves the key list unchanged, a
new key is appended (first-insertion order, as a JS `Map`). -/
theorem bump_keys (h : String) (m : List (String × Nat)) :
    (bump h m).map Prod.fst =
      if h ∈ m.map Prod.fst then m.map Prod.fst else m.map Prod.fst ++ [h] := by
  induction m with
  | nil => simp [bump]
  | cons kc t ih =>
    by_cases hk : kc.1 = h
    · have : bump h (kc :: t) = (kc.1, kc.2 + 1) :: t := by
        cases kc; simp only [bump, if_pos hk]
      simp [this, hk]
    · have : bump h (kc :: t) = kc :: bump h t := by
        cases kc; simp only [bump, if_neg hk]
      rw [this]
      simp only [List.map_cons, ih]
      have hne : ¬ kc.1 = h := hk
      by_cases hm : h ∈ t.map Prod.fst
      · simp [hm, Ne.symm hne]
      · simp [hm, Ne.symm hne]

/-- A bump adds exactly one to the total of the counts. -/
theorem bump_counts_sum (h : String) (m : List (String × Nat)) :
    ((bump h m).map Prod.snd).sum = (m.map Prod.snd).sum + 1 := by
  induction m with
  | nil => simp [bump]
  | cons kc t ih =>
    by_cases hk : kc.1 = h
    · have : bump h (kc :: t) = (kc.1, kc.2 + 1) :: t := by
        cases kc; simp only [bump, if_pos hk]
      simp [this]; omega
    · have : bump h (kc :: t) = kc :: bump h t := by
        cases kc; simp only [bump, if_neg hk]
      simp [this, ih]; omega

/-- Folding bumps over a pixel list adds one count per pixel. -/
theorem foldl_bump_sum :
    ∀ (l : List String) (m : List (String × Nat)),
      ((l.foldl (fun m h => bump h m) m).map Prod.snd).sum =
        (m.map Prod.snd).sum + l.length := by
  intro l
  induction l with
  | nil => intro m; simp
  | cons a t ih =>
    intro m
    simp only [List.foldl_cons, ih (bump a m), bump_counts_sum, List.length_cons]
    omega

/-- Membership in the first-occurrence deduplication. -/
theorem mem_dedupFirstGo :
    ∀ (t seen : List String) (x : String),
      x ∈ dedupFirstGo t seen ↔ x ∈ t ∧ x ∉ seen := by
  intro t
  induction t with
  | nil => intro seen x; simp [dedupFirstGo]
  | cons a t ih =>
    intro seen x
    by_cases ha : a ∈ seen
    · simp only [dedupFirstGo, if_pos ha, ih, List.mem_cons]
      constructor
      · rintro ⟨hx, hs⟩; exact ⟨Or.inr hx, hs⟩
      · rintro ⟨hx | hx, hs⟩
        · exact absurd ha (hx ▸ hs)
        · exact ⟨hx, hs⟩
    · simp only [dedupFirstGo, if_neg ha, List.mem_cons, ih, List.mem_cons]
      constructor
      · rintro (rfl | ⟨hx, hs⟩)
        · exact ⟨Or.inl rfl, ha⟩
        · exact ⟨Or.inr hx, fun hxs => hs (Or.inr hxs)⟩
      · rintro ⟨rfl | hx, hs⟩
        · exact Or.inl rfl
        · by_cases hxa : x = a
          · exact Or.inl hxa
          · exact Or.inr ⟨hx, fun hxs => hxs.elim hxa hs⟩

/-- The deduplication only looks at membership of `seen`. -/
theorem dedupFirstGo_congr :
    ∀ (t s1 s2 : List String), (∀ x, x ∈ s1 ↔ x ∈ s2) →
      dedupFirstGo t s1 = dedupFirstGo t s2 := by
  intro t
  induction t with
  | nil => intro s1 s2 _; rfl
  | cons a t ih =>
    intro s1 s2 hs
    by_cases ha : a ∈ s1
    · simp only [dedupFirstGo, if_pos ha, if_pos ((hs a).mp ha)]
      exact ih s1 s2 hs
    · simp only [dedupFirstGo, if_neg ha, if_neg (fun h => ha ((hs a).mpr h))]
      have : ∀ x, x ∈ a :: s1 ↔ x ∈ a :: s2 := by
        intro x; simp only [List.mem_cons, hs x]
      rw [ih (a :: s1) (a :: s2) this]

/-- Closed form for the key list of the running frequency map: keys in
hand, then the not-yet-seen pixels in first-occurrence order. -/
theorem foldl_bump_keys :
    ∀ (l : List String) (m : List (String × Nat)),
      (l.foldl (fun m h => bump h m) m).map Prod.fst =
        m.map Prod.fst ++ dedupFirstGo l (m.map Prod.fst) := by
  intro l
  induction l with
  | nil => intro m; simp [dedupFirstGo]
  | cons a t ih =>
    intro m
    simp only [List.foldl_cons, ih (bump a m), bump_keys]
    by_cases ha : a ∈ m.map Prod.fst
    · simp only [if_pos ha, dedupFirstGo, if_pos ha]
    · simp only [if_neg ha, dedupFirstGo, if_neg ha]
      rw [dedupFirstGo_congr t (m.map Prod.fst ++ [a]) (a :: m.map Prod.fst)
        (by intro x; simp [List.mem_append, List.mem_cons]; tauto)]
      simp [List.append_assoc]

/-- The key list of the frequency map is the buffer's distinct colors in
first-occurrence order. -/
theorem colorMap_keys (buf : PixelBuffer) :
    (colorMap buf).map Prod.fst = distinctColors buf := by
  have := foldl_bump_keys (pixelHexList buf) []
  simpa [colorMap, distinctColors, dedupFirst] using this

/-- Unfolding equation of `idxOf`. -/
theorem idxOf_cons (s a : String) (l : List String) :
    idxOf s (a :: l) = if a = s then 0 else idxOf s l + 1 := rfl

/-- The first-occurrence deduplication lists keys in strictly increasing
order of first occurrence. -/
theorem pairwise_idxOf_dedupFirstGo :
    ∀ (t seen : List String),
      (dedupFirstGo t seen).Pairwise fun x y => idxOf x t < idxOf y t := by
  intro t
  induction t with
  | nil => intro seen; simp [dedupFirstGo]
  | cons a t ih =>
    intro seen
    have transfer : ∀ s : List String, a ∈ s →
        (dedupFirstGo t s).Pairwise fun x y => idxOf x (a :: t) < idxOf y (a :: t) := by
      intro s has
      refine List.Pairwise.imp_of_mem ?_ (ih s)
      intro x y hx hy hxy
      have hxa : ¬ a = x := by
        intro h
        exact ((mem_dedupFirstGo t s x).mp hx).2 (h ▸ has)
      have hya : ¬ a = y := by
        intro h
        exact ((mem_dedupFirstGo t s y).mp hy).2 (h ▸ has)
      simp only [idxOf_cons, if_neg hxa, if_neg hya]
      omega
    by_cases ha : a ∈ seen
    · simp only [dedupFirstGo, if_pos ha]
      exact transfer seen ha
    · simp only [dedupFirstGo, if_neg ha, List.pairwise_cons]
      refine ⟨?_, transfer (a :: seen) (List.mem_cons_self a seen)⟩
      intro y hy
      have hya : ¬ a = y := by
        intro h
        exact ((mem_dedupFirstGo t (a :: seen) y).mp hy).2 (h ▸ List.mem_cons_self a seen)
      simp [idxOf_cons, hya]

/-- Any two positions of a list, in order, form a two-element
subsequence. -/
theorem get_pair_sublist {α : Type} :
    ∀ (l : List α) (i j : Nat) (hij : i < j) (hj : j < l.length),
      List.Sublist [l.get ⟨i, lt_trans hij hj⟩, l.get ⟨j, hj⟩] l := by
  intro l
  induction l with
  | nil => intro i j hij hj; simp at hj
  | cons a t ih =>
    intro i j hij hj
    cases i with
    | zero =>
      cases j with
      | zero => omega
      | succ j =>
        simp only [List.get]
        exact (List.singleton_sublist.mpr (t.get_mem _ _)).cons₂ a
    | succ i =>
      cases j with
      | zero => omega
      | succ j =>
        simp only [List.get]
        exact (ih i j (by omega) (by simpa using hj)).cons a

/-! ### Lemmas about the hex formatting -/

/-- On the sixteen digit values, `hexVal` inverts `Nat.digitChar`. -/
theorem hexVal_digitChar : ∀ m, m < 16 → hexVal (Nat.digitChar m) = m := by decide

/-- Every character `Nat.digitChar` produces for a digit value is a
lowercase hex digit. -/
theorem isHexDigitChar_digitChar : ∀ m, m < 16 → isHexDigitChar (Nat.digitChar m) = true := by
  decide

/-- The accumulator of `hexCharsAux` is simply appended to the rendered
digits. -/
theorem hexCharsAux_append :
    ∀ (fuel n : Nat) (acc : List Char),
      hexCharsAux fuel n acc = hexCharsAux fuel n [] ++ acc := by
  intro fuel
  induction fuel with
  | zero => intro n acc; rfl
  | succ fuel ih =>
    intro n acc
    by_cases h : n < 16
    · simp [hexCharsAux, h]
    · simp only [hexCharsAux, if_neg h]
      rw [ih (n / 16) (Nat.digitChar (n % 16) :: acc),
        ih (n / 16) [Nat.digitChar (n % 16)], List.append_assoc]
      rfl

/-- Folding the digit-accumulation step from an arbitrary start `a`. -/
theorem ofHex_foldl_acc :
    ∀ (l : List Char) (a : Nat),
      l.foldl (fun a c => 16 * a + hexVal c) a = a * 16 ^ l.length + ofHex l := by
  intro l
  induction l with
  | nil => intro a; simp [ofHex]
  | cons c t ih =>
    intro a
    have h0 : ofHex (c :: t) = (hexVal c) * 16 ^ t.length + ofHex t := by
      simpa [ofHex] using ih (16 * 0 + hexVal c)
    simp only [List.foldl_cons, List.length_cons, ofHex] at *
    rw [ih (16 * a + hexVal c), h0]
    ring

/-- Reading the rendered hex digits back yields the number: JavaScript's
`toString(16)` is a faithful base-16 encoding. -/
theorem ofHex_hexCharsAux :
    ∀ (fuel n : Nat), n < fuel → ofHex (hexCharsAux fuel n []) = n := by
  intro fuel
  induction fuel with
  | zero => intro n h; omega
  | succ fuel ih =>
    intro n h
    by_cases h16 : n < 16
    · simp [hexCharsAux, h16, ofHex, hexVal_digitChar n h16]
    · have hdiv : n / 16 < fuel := by
        have := Nat.div_lt_self (by omega : 0 < n) (by omega : 1 < 16)
        omega
      simp only [hexCharsAux, if_neg h16]
      rw [hexCharsAux_append fuel (n / 16) [Nat.digitChar (n % 16)]]
      simp only [ofHex, List.foldl_append, List.foldl_cons, List.foldl_nil]
      have := ih (n / 16) hdiv
      simp only [ofHex] at this
      rw [this, hexVal_digitChar (n % 16) (Nat.mod_lt n (by omega))]
      omega

/-- For `n` in `[16^k, 2·16^k)` the rendering is the digit `1` followed
by exactly `k` further digits. -/
theorem hexCharsAux_structure :
    ∀ (k fuel n : Nat), 16 ^ k ≤ n → n < 2 * 16 ^ k → n < fuel →
      ∃ rest, hexCharsAux fuel n [] = '1' :: rest ∧ rest.length = k := by
  intro k
  induction k with
  | zero =>
    intro fuel n h1 h2 hf
    simp only [pow_zero] at h1 h2
    have hn : n = 1 := by omega
    subst hn
    obtain ⟨f, rfl⟩ : ∃ f, fuel = f + 1 := ⟨fuel - 1, by omega⟩
    exact ⟨[], rfl, rfl⟩
  | succ k ih =>
    intro fuel n h1 h2 hf
    have h16 : ¬ n < 16 := by
      have : (16 : Nat) ^ 1 ≤ 16 ^ (k + 1) := Nat.pow_le_pow_right (by omega) (by omega)
      simp at this; omega
    obtain ⟨f, rfl⟩ : ∃ f, fuel = f + 1 := ⟨fuel - 1, by omega⟩
    have hpow : (16 : Nat) ^ (k + 1) = 16 ^ k * 16 := by ring
    have hb1 : 16 ^ k ≤ n / 16 := by
      rw [Nat.le_div_iff_mul_le (by omega : 0 < 16)]; omega
    have hb2 : n / 16 < 2 * 16 ^ k := by
      rw [Nat.div_lt_iff_lt_mul (by omega : 0 < 16)]; omega
    have hb3 : n / 16 < f := by
      have := Nat.div_lt_self (by omega : 0 < n) (by omega : 1 < 16)
      omega
    obtain ⟨rest, hr, hlen⟩ := ih f (n / 16) hb1 hb2 hb3
    refine ⟨rest ++ [Nat.digitChar (n % 16)], ?_, by simp [hlen]⟩
    simp only [hexCharsAux, if_neg h16]
    rw [hexCharsAux_append f (n / 16) [Nat.digitChar (n % 16)], hr]
    rfl

/-- Every rendered character is a lowercase hex digit. -/
theorem hexCharsAux_hexDigits :
    ∀ (fuel n : Nat) (acc : List Char), (∀ c ∈ acc, isHexDigitChar c = true) →
      ∀ c ∈ hexCharsAux fuel n acc, isHexDigitChar c = true := by
  intro fuel
  induction fuel with
  | zero => intro n acc hacc; exact hacc
  | succ fuel ih =>
    intro n acc hacc c hc
    by_cases h16 : n < 16
    · simp only [hexCharsAux, if_pos h16] at hc
      rcases List.mem_cons.mp hc with rfl | h
      · exact isHexDigitChar_digitChar n h16
      · exact hacc c h
    · simp only [hexCharsAux, if_neg h16] at hc
      refine ih (n / 16) (Nat.digitChar (n % 16) :: acc) ?_ c hc
      intro d hd
      rcases List.mem_cons.mp hd with rfl | h
      · exact isHexDigitChar_digitChar (n % 16) (Nat.mod_lt n (by omega))
      · exact hacc d h

/-- Range of the value `(1 << 24) + (r << 16) + (g << 8) + b` for byte
channels. -/
theorem encVal_range (r g b : Nat) (hr : r < 256) (hg : g < 256) (hb : b < 256) :
    16 ^ 6 ≤ encVal r g b ∧ encVal r g b < 2 * 16 ^ 6 := by
  simp only [encVal]
  norm_num
  omega

/-- Full shape of the hex rendering of `encVal r g b`: a leading `1`,
then six digits that read back as `r·2^16 + g·2^8 + b`. -/
theorem hexChars_encVal (r g b : Nat) (hr : r < 256) (hg : g < 256) (hb : b < 256) :
    ∃ rest, hexChars (encVal r g b) = '1' :: rest ∧ rest.length = 6 ∧
      ofHex rest = r * 65536 + g * 256 + b := by
  obtain ⟨h1, h2⟩ := encVal_range r g b hr hg hb
  obtain ⟨rest, hr1, hlen⟩ :=
    hexCharsAux_structure 6 (encVal r g b + 1) (encVal r g b) h1 h2 (Nat.lt_succ_self _)
  refine ⟨rest, hr1, hlen, ?_⟩
  have hround := ofHex_hexCharsAux (encVal r g b + 1) (encVal r g b) (Nat.lt_succ_self _)
  rw [hr1] at hround
  have hone : ofHex ('1' :: rest) = 16 ^ rest.length + ofHex rest := by
    have hstep : ofHex ('1' :: rest) = rest.foldl (fun a c => 16 * a + hexVal c) 1 := by
      have hf : 16 * 0 + hexVal '1' = 1 := by decide
      simp only [ofHex, List.foldl_cons, hf]
    rw [hstep, ofHex_foldl_acc rest 1, one_mul]
  rw [hone, hlen] at hround
  have henc : encVal r g b = 16777216 + r * 65536 + g * 256 + b := by
    simp only [encVal]; norm_num
  norm_num at hround
  omega

/-- C1. The hex key produced by the shared formatter of the extractor
and the sampler is `#` followed by exactly six lowercase hex digits that
zero-pad and encode the single `(r,g,b)` triple: the string has length
7, starts with `#`, all remaining characters are hex digits, it decodes
back to `(r,g,b)`, and the formatter is injective on byte triples.
Moreover every hex in an extraction result is the formatter applied to
the RGB part of some sample of the buffer, and every sampler result is
the formatter applied to some RGB triple; the alpha channel is ignored
by construction. -/
theorem claim_C1 (r g b : Nat) (hr : r < 256) (hg : g < 256) (hb : b < 256) :
    (toHex r g b).data.length = 7 ∧
    (toHex r g b).data.head? = some '#' ∧
    (∀ c ∈ (toHex r g b).data.tail, isHexDigitChar c = true) ∧
    decodeColor (toHex r g b) = (r, g, b) ∧
    (∀ r2 g2 b2 : Nat, r2 < 256 → g2 < 256 → b2 < 256 →
      toHex r2 g2 b2 = toHex r g b → r2 = r ∧ g2 = g ∧ b2 = b) ∧
    (∀ buf c, c ∈ extractColors buf →
      ∃ p ∈ buf.samples, c.hex = toHex p.1 p.2.1 p.2.2.1) ∧
    (∀ buf x y rectW rectH, ∃ p : Nat × Nat × Nat × Nat,
      getColorAtPoint buf x y rectW rectH = toHex p.1 p.2.1 p.2.2.1) := by
  obtain ⟨rest, hstruct, hlen, hval⟩ := hexChars_encVal r g b hr hg hb
  have hdata : (toHex r g b).data = '#' :: rest := by
    simp [toHex, hstruct]
  refine ⟨?_, ?_, ?_, ?_, ?_, ?_, ?_⟩
  · simp [hdata, hlen]
  · simp [hdata]
  · intro c hc
    rw [hdata] at hc
    simp only [List.tail_cons] at hc
    have : ∀ d ∈ hexChars (encVal r g b), isHexDigitChar d = true := by
      intro d hd
      exact hexCharsAux_hexDigits (encVal r g b + 1) (encVal r g b) [] (by simp) d hd
    exact this c (by rw [hstruct]; exact List.mem_cons_of_mem _ hc)
  · simp only [decodeColor, hdata, List.drop_one, List.tail_cons, hval, Prod.mk.injEq]
    refine ⟨?_, ?_, ?_⟩ <;> omega
  · intro r2 g2 b2 hr2 hg2 hb2 heq
    obtain ⟨rest2, hstruct2, hlen2, hval2⟩ := hexChars_encVal r2 g2 b2 hr2 hg2 hb2
    have hdata2 : (toHex r2 g2 b2).data = '#' :: rest2 := by
      simp [toHex, hstruct2]
    have hrr : rest2 = rest := by
      have hlists := congrArg String.data heq
      rw [hdata, hdata2] at hlists
      simpa using hlists
    rw [hrr] at hval2
    omega
  · intro buf c hc
    have h1 : c ∈ sortColorsDesc (colorEntries buf) :=
      List.mem_of_mem_take hc
    have h2 : c ∈ colorEntries buf :=
      (sortColorsDesc_perm (colorEntries buf)).mem_iff.mp h1
    obtain ⟨kc, hkc, rfl⟩ := List.mem_map.mp h2
    have hk : kc.1 ∈ (colorMap buf).map Prod.fst := List.mem_map_of_mem _ hkc
    rw [colorMap_keys] at hk
    have hk2 : kc.1 ∈ pixelHexList buf :=
      ((mem_dedupFirstGo (pixelHexList buf) [] kc.1).mp hk).1
    obtain ⟨p, hp, hph⟩ := List.mem_map.mp hk2
    exact ⟨p, hp, hph.symm⟩
  · intro buf x y rectW rectH
    exact ⟨readPixel buf (srcCoord buf x y rectW rectH).1 (srcCoord buf x y rectW rectH).2,
      rfl⟩

/-- Witness for C1 at the concrete triple (10, 20, 30). -/
theorem claim_C1_witness : decodeColor (toHex 10 20 30) = (10, 20, 30) :=
  (claim_C1 10 20 30 (by decide) (by decide) (by decide)).2.2.2.1

/-- C2. On a buffer displayed at its natural size (scale factors exactly
1), a click at display coordinate (2,3) reads pixel (2,3); when that
pixel is RGB(10,20,30) the sampler returns the string `#0a141e`. -/
theorem claim_C2 (buf : PixelBuffer) (a : Nat) (hw : 2 < buf.width) (hh : 3 < buf.height)
    (hpix : pixelAt buf 2 3 = (10, 20, 30, a)) :
    getColorAtPoint buf 2 3 (buf.width : ℚ) (buf.height : ℚ) = "#0a141e" := by
  have hw0 : ((buf.width : ℚ)) ≠ 0 := Nat.cast_ne_zero.mpr (by omega)
  have hh0 : ((buf.height : ℚ)) ≠ 0 := Nat.cast_ne_zero.mpr (by omega)
  have hsc : srcCoord buf 2 3 (buf.width : ℚ) (buf.height : ℚ) = (2, 3) := by
    simp only [srcCoord, div_self hw0, div_self hh0, mul_one, jsTrunc]
    norm_num
  have hrp : readPixel buf 2 3 = pixelAt buf 2 3 := by
    simp only [readPixel]
    rw [if_pos ⟨by norm_num, by exact_mod_cast hw, by norm_num, by exact_mod_cast hh⟩]
    rfl
  simp only [getColorAtPoint, hsc, hrp, hpix]
  decide

/-- Witness for C2 at the concrete 3×4 buffer `demoBuf`. -/
theorem claim_C2_witness :
    getColorAtPoint demoBuf 2 3 (demoBuf.width : ℚ) (demoBuf.height : ℚ) = "#0a141e" :=
  claim_C2 demoBuf 255 (by decide) (by decide) (by decide)

/-- C3. For nonnegative click coordinates and positive display sizes,
the sampler reads source coordinates `(⌊x·width/displayWidth⌋,
⌊y·height/displayHeight⌋)`; in particular on a 100×100 buffer displayed
at 50×50 a click at (10,10) reads source pixel (20,20). -/
theorem claim_C3 :
    (∀ (buf : PixelBuffer) (x y rectW rectH : ℚ), 0 ≤ x → 0 ≤ y →
      0 < rectW → 0 < rectH →
      srcCoord buf x y rectW rectH =
        (⌊x * (buf.width : ℚ) / rectW⌋, ⌊y * (buf.height : ℚ) / rectH⌋)) ∧
    (∀ buf : PixelBuffer, buf.width = 100 → buf.height = 100 →
      getColorAtPoint buf 10 10 50 50 =
        toHex (pixelAt buf 20 20).1 (pixelAt buf 20 20).2.1 (pixelAt buf 20 20).2.2.1) := by
  constructor
  · intro buf x y rectW rectH hx hy hw hh
    simp only [srcCoord, jsTrunc, Prod.mk.injEq]
    constructor
    · rw [if_pos (mul_nonneg hx (div_nonneg (Nat.cast_nonneg _) (le_of_lt hw))),
        mul_div_assoc]
    · rw [if_pos (mul_nonneg hy (div_nonneg (Nat.cast_nonneg _) (le_of_lt hh))),
        mul_div_assoc]
  · intro buf h100w h100h
    have hsc : srcCoord buf 10 10 50 50 = (20, 20) := by
      simp only [srcCoord, h100w, h100h, jsTrunc]
      norm_num
    have hrp : readPixel buf 20 20 = pixelAt buf 20 20 := by
      simp only [readPixel]
      rw [if_pos ⟨by norm_num, by rw [h100w]; norm_num, by norm_num,
        by rw [h100h]; norm_num⟩]
      rfl
    simp only [getColorAtPoint, hsc, hrp]

/-- Witness for C3 at the concrete 100×100 buffer `bigBuf`. -/
theorem claim_C3_witness :
    srcCoord bigBuf 10 10 50 50 =
      (⌊(10 : ℚ) * (bigBuf.width : ℚ) / 50⌋, ⌊(10 : ℚ) * (bigBuf.height : ℚ) / 50⌋) ∧
    getColorAtPoint bigBuf 10 10 50 50 =
      toHex (pixelAt bigBuf 20 20).1 (pixelAt bigBuf 20 20).2.1
        (pixelAt bigBuf 20 20).2.2.1 :=
  ⟨claim_C3.1 bigBuf 10 10 50 50 (by norm_num) (by norm_num) (by norm_num) (by norm_num),
   claim_C3.2 bigBuf rfl rfl⟩

/-- C4 counterexample: on the all-white 2×2 buffer a click exactly at
(displayWidth, displayHeight) = (2,2) reads a source pixel outside the
buffer (the canvas's transparent black, a value that is no sample of the
buffer) and returns `#000000`, not the clamped last pixel's `#ffffff`;
the sampler is total, so no `SampleError` is ever produced. -/
theorem claim_C4_counterexample :
    getColorAtPoint whiteBuf 2 2 2 2 = "#000000" ∧
    readPixel whiteBuf (srcCoord whiteBuf 2 2 2 2).1 (srcCoord whiteBuf 2 2 2 2).2 =
      (0, 0, 0, 0) ∧
    (0, 0, 0, 0) ∉ whiteBuf.samples ∧
    toHex 255 255 255 = "#ffffff" ∧
    "#000000" ≠ "#ffffff" := by
  refine ⟨?_, ?_, by decide, by decide, by decide⟩
  · have hblack : toHex 0 0 0 = "#000000" := by decide
    norm_num [getColorAtPoint, srcCoord, jsTrunc, readPixel, pixelAt, whiteBuf, hblack]
  · norm_num [srcCoord, jsTrunc, readPixel, whiteBuf]

/-- C4 (amended). The sampler neither clamps nor rejects: whenever the
scaled source coordinate falls outside the buffer it reads the canvas's
transparent black and returns `#000000`; in particular a click exactly
at (displayWidth, displayHeight) on a buffer shown at natural size does
so, and a degenerate display size 0 is not rejected either — the scale
degenerates and the read resolves to source coordinate (0, 0). -/
theorem claim_C4 :
    (∀ (buf : PixelBuffer) (x y rectW rectH : ℚ),
      (¬ (0 ≤ (srcCoord buf x y rectW rectH).1 ∧
          (srcCoord buf x y rectW rectH).1 < (buf.width : ℤ) ∧
          0 ≤ (srcCoord buf x y rectW rectH).2 ∧
          (srcCoord buf x y rectW rectH).2 < (buf.height : ℤ))) →
      getColorAtPoint buf x y rectW rectH = "#000000") ∧
    (∀ buf : PixelBuffer, 0 < buf.width → 0 < buf.height →
      getColorAtPoint buf (buf.width : ℚ) (buf.height : ℚ)
        (buf.width : ℚ) (buf.height : ℚ) = "#000000") ∧
    (∀ (buf : PixelBuffer) (x y : ℚ), srcCoord buf x y 0 0 = (0, 0)) := by
  have hblack : toHex 0 0 0 = "#000000" := by decide
  refine ⟨?_, ?_, ?_⟩
  · intro buf x y rectW rectH h
    simp only [getColorAtPoint, readPixel, if_neg h]
    exact hblack
  · intro buf hw hh
    have hw0 : ((buf.width : ℚ)) ≠ 0 := Nat.cast_ne_zero.mpr (by omega)
    have hh0 : ((buf.height : ℚ)) ≠ 0 := Nat.cast_ne_zero.mpr (by omega)
    have hsc : srcCoord buf (buf.width : ℚ) (buf.height : ℚ)
        (buf.width : ℚ) (buf.height : ℚ) = ((buf.width : ℤ), (buf.height : ℤ)) := by
      simp only [srcCoord, div_self hw0, div_self hh0, mul_one, jsTrunc]
      rw [if_pos (Nat.cast_nonneg _), if_pos (Nat.cast_nonneg _)]
      simp
    simp only [getColorAtPoint, hsc, readPixel]
    rw [if_neg (by simp)]
    exact hblack
  · intro buf x y
    simp only [srcCoord, div_zero, mul_zero, jsTrunc]
    norm_num

/-- Witness for C4 at a concrete out-of-range click on `whiteBuf`. -/
theorem claim_C4_witness : getColorAtPoint whiteBuf 5 5 2 2 = "#000000" :=
  claim_C4.1 whiteBuf 5 5 2 2 (by norm_num [srcCoord, jsTrunc, whiteBuf])

/-- Summing the mapped percentages of a frequency map equals the summed
counts over the total, scaled to 100. -/
theorem pct_map_sum (m : List (String × Nat)) (T : ℚ) :
    ((m.map fun kc => Color.mk kc.1 ((kc.2 : ℚ) / T * 100)).map Color.percentage).sum =
      ((m.map Prod.snd).sum : ℚ) / T * 100 := by
  induction m with
  | nil => simp
  | cons kc t ih =>
    simp only [List.map_cons, List.sum_cons, ih]
    push_cast
    ring

/-- Every percentage the extractor produces is nonnegative. -/
theorem colorEntries_nonneg (buf : PixelBuffer) :
    ∀ c ∈ colorEntries buf, 0 ≤ c.percentage := by
  intro c hc
  obtain ⟨kc, _, rfl⟩ := List.mem_map.mp hc
  positivity

/-- C5. For a buffer of positive area, the percentages of the full
untruncated histogram sum to exactly 100 in exact rational arithmetic,
and the truncated top-6 list sums to at most 100. -/
theorem claim_C5 (buf : PixelBuffer) (hlen : buf.samples.length = buf.width * buf.height)
    (hpos : 0 < buf.width * buf.height) :
    sumPct (colorEntries buf) = 100 ∧ sumPct (extractColors buf) ≤ 100 := by
  have hT : ((totalPixels buf : ℚ)) ≠ 0 := by
    simp only [totalPixels]
    exact_mod_cast (by omega : buf.samples.length ≠ 0)
  have hful : sumPct (colorEntries buf) = 100 := by
    unfold sumPct colorEntries
    rw [pct_map_sum]
    have hsum : ((colorMap buf).map Prod.snd).sum = totalPixels buf := by
      unfold colorMap totalPixels
      rw [foldl_bump_sum]
      simp [pixelHexList]
    rw [hsum, div_self hT, one_mul]
  refine ⟨hful, ?_⟩
  have hperm : List.Perm (sortColorsDesc (colorEntries buf)) (colorEntries buf) :=
    sortColorsDesc_perm _
  have hsorted_sum : sumPct (sortColorsDesc (colorEntries buf)) = 100 := by
    unfold sumPct
    rw [List.Perm.sum_eq (hperm.map Color.percentage)]
    exact hful
  have hd : 0 ≤ sumPct ((sortColorsDesc (colorEntries buf)).drop 6) := by
    unfold sumPct
    apply List.sum_nonneg
    intro q hq
    obtain ⟨c, hc, rfl⟩ := List.mem_map.mp hq
    exact colorEntries_nonneg buf c (hperm.mem_iff.mp (List.mem_of_mem_drop hc))
  have hadd : sumPct (sortColorsDesc (colorEntries buf)) =
      sumPct (extractColors buf) + sumPct ((sortColorsDesc (colorEntries buf)).drop 6) := by
    unfold sumPct extractColors
    rw [← List.sum_append, ← List.map_append, List.take_append_drop]
  linarith [hadd, hd, hsorted_sum]

/-- Witness for C5 at the concrete buffer `tieBuf`. -/
theorem claim_C5_witness :
    sumPct (colorEntries tieBuf) = 100 ∧ sumPct (extractColors tieBuf) ≤ 100 :=
  claim_C5 tieBuf (by decide) (by decide)

/-- C6. The extractor output is sorted by non-increasing percentage:
each entry's percentage is at least the next one's. -/
theorem claim_C6 (buf : PixelBuffer) (i : Nat) (h : i + 1 < (extractColors buf).length) :
    ((extractColors buf).get ⟨i + 1, h⟩).percentage ≤
      ((extractColors buf).get ⟨i, Nat.lt_of_succ_lt h⟩).percentage := by
  have hp : (extractColors buf).Pairwise fun x y => y.percentage ≤ x.percentage :=
    List.Pairwise.sublist (List.take_sublist 6 _) (sortColorsDesc_sorted (colorEntries buf))
  rw [List.pairwise_iff_get] at hp
  exact hp ⟨i, Nat.lt_of_succ_lt h⟩ ⟨i + 1, h⟩ (by exact Nat.lt_succ_self i)

/-- Evaluation of the extractor on the concrete buffer `rampBuf`. -/
theorem rampBuf_eval :
    extractColors rampBuf = [⟨"#000000", 200 / 3⟩, ⟨"#ffffff", 100 / 3⟩] := by
  have h1 : toHex 0 0 0 = "#000000" := by decide
  have h2 : toHex 255 255 255 = "#ffffff" := by decide
  norm_num [extractColors, colorEntries, colorMap, pixelHexList, totalPixels, bump,
    sortColorsDesc, insertDesc, rampBuf, h1, h2]

/-- Witness for C6 at the concrete buffer `rampBuf`. -/
theorem claim_C6_witness :
    ((extractColors rampBuf).get ⟨1, by rw [rampBuf_eval]; norm_num⟩).percentage ≤
      ((extractColors rampBuf).get ⟨0, by rw [rampBuf_eval]; norm_num⟩).percentage :=
  claim_C6 rampBuf 0 (by rw [rampBuf_eval]; norm_num)

/-- C7. The extractor returns at most 6 entries and at most one entry
per distinct color; when fewer than 6 distinct colors exist, every
distinct color of the buffer appears in the result. -/
theorem claim_C7 (buf : PixelBuffer) :
    (extractColors buf).length ≤ 6 ∧
    (extractColors buf).length ≤ (distinctColors buf).length ∧
    ((distinctColors buf).length < 6 →
      ∀ hx ∈ distinctColors buf, ∃ c ∈ extractColors buf, c.hex = hx) := by
  have hlen_eq : (sortColorsDesc (colorEntries buf)).length = (distinctColors buf).length := by
    rw [(sortColorsDesc_perm _).length_eq]
    unfold colorEntries
    rw [List.length_map, ← colorMap_keys buf, List.length_map]
  refine ⟨?_, ?_, ?_⟩
  · unfold extractColors
    rw [List.length_take]
    exact min_le_left _ _
  · unfold extractColors
    rw [List.length_take, hlen_eq]
    exact min_le_right _ _
  · intro hlt hx hhx
    have htake : extractColors buf = sortColorsDesc (colorEntries buf) := by
      unfold extractColors
      apply List.take_of_length_le
      omega
    rw [← colorMap_keys buf] at hhx
    obtain ⟨kc, hkc, hk1⟩ := List.mem_map.mp hhx
    refine ⟨⟨kc.1, (kc.2 : ℚ) / (totalPixels buf : ℚ) * 100⟩, ?_, hk1⟩
    rw [htake]
    apply (sortColorsDesc_perm _).mem_iff.mpr
    exact List.mem_map.mpr ⟨kc, hkc, rfl⟩

/-- Witness for C7 at the concrete buffer `tieBuf`, exercising the
fewer-than-limit branch. -/
theorem claim_C7_witness :
    (extractColors tieBuf).length ≤ 6 ∧
    ∃ c ∈ extractColors tieBuf, c.hex = "#010000" :=
  ⟨(claim_C7 tieBuf).1,
   (claim_C7 tieBuf).2.2 (by decide) "#010000" (by decide)⟩

/-- C8. Extraction is total and yields the empty palette on a zero-area
buffer: no error value exists in its type, and a 0×0 buffer maps to
`[]`. -/
theorem claim_C8 (buf : PixelBuffer) (hw : buf.width * buf.height = 0)
    (hlen : buf.samples.length = buf.width * buf.height) :
    extractColors buf = [] := by
  have hs : buf.samples = [] := List.length_eq_zero.mp (by omega)
  simp [extractColors, colorEntries, colorMap, pixelHexList, hs, sortColorsDesc]

/-- Witness for C8 at the concrete 0×0 buffer. -/
theorem claim_C8_witness : extractColors ⟨0, 0, []⟩ = [] :=
  claim_C8 ⟨0, 0, []⟩ (by decide) (by decide)

/-- C9. The extractor is a deterministic pure function of the buffer
contents: buffers with equal width, height and samples yield equal
ordered palettes (the embedding is a function, so repeated calls agree
and nothing is mutated). -/
theorem claim_C9 (b1 b2 : PixelBuffer) (hw : b1.width = b2.width)
    (hh : b1.height = b2.height) (hs : b1.samples = b2.samples) :
    extractColors b1 = extractColors b2 := by
  obtain ⟨w1, h1, s1⟩ := b1
  obtain ⟨w2, h2, s2⟩ := b2
  dsimp only at hw hh hs
  subst hw; subst hh; subst hs
  rfl

/-- Witness for C9 at two definitionally distinct spellings of the same
buffer. -/
theorem claim_C9_witness :
    extractColors tieBuf = extractColors ⟨2, 1, [(1, 0, 0, 255), (0, 0, 0, 255)]⟩ :=
  claim_C9 tieBuf ⟨2, 1, [(1, 0, 0, 255), (0, 0, 0, 255)]⟩ rfl rfl rfl

/-- Evaluation of the extractor on the concrete tie buffer: the color
first seen in scan order (`#010000`) is listed before the equally
frequent `#000000`, not in ascending hex order. -/
theorem tieBuf_eval :
    extractColors tieBuf = [⟨"#010000", 50⟩, ⟨"#000000", 50⟩] := by
  have h1 : toHex 1 0 0 = "#010000" := by decide
  have h2 : toHex 0 0 0 = "#000000" := by decide
  norm_num [extractColors, colorEntries, colorMap, pixelHexList, totalPixels, bump,
    sortColorsDesc, insertDesc, tieBuf, h1, h2]

/-- C10. Ties are ordered by first occurrence in row-major scan order:
if two entries of the result have equal percentages, the one listed
first has the earlier first pixel occurrence (a consequence of
first-insertion map ordering and sort stability); on `tieBuf` this
produces `#010000` before `#000000`, which is not ascending hex order. -/
theorem claim_C10 :
    (∀ (buf : PixelBuffer) (i j : Nat) (hij : i < j)
      (hj : j < (extractColors buf).length),
      ((extractColors buf).get ⟨i, lt_trans hij hj⟩).percentage =
        ((extractColors buf).get ⟨j, hj⟩).percentage →
      idxOf ((extractColors buf).get ⟨i, lt_trans hij hj⟩).hex (pixelHexList buf) <
        idxOf ((extractColors buf).get ⟨j, hj⟩).hex (pixelHexList buf)) ∧
    extractColors tieBuf = [⟨"#010000", 50⟩, ⟨"#000000", 50⟩] := by
  refine ⟨?_, tieBuf_eval⟩
  intro buf i j hij hj heq
  set x := (extractColors buf).get ⟨i, lt_trans hij hj⟩ with hxdef
  set y := (extractColors buf).get ⟨j, hj⟩ with hydef
  have hpair : List.Sublist [x, y] (extractColors buf) :=
    get_pair_sublist (extractColors buf) i j hij hj
  have hsub1 : List.Sublist [x, y] (sortColorsDesc (colorEntries buf)) :=
    hpair.trans (List.take_sublist 6 _)
  have hx : pctIs x.percentage x = true := pctIs_eq_true.mpr rfl
  have hy : pctIs x.percentage y = true := pctIs_eq_true.mpr heq.symm
  have hfilter : [x, y].filter (pctIs x.percentage) = [x, y] := by
    simp [List.filter, hx, hy]
  have hsub2 : List.Sublist [x, y]
      ((sortColorsDesc (colorEntries buf)).filter (pctIs x.percentage)) := by
    rw [← hfilter]
    exact List.Sublist.filter _ hsub1
  rw [sortColorsDesc_filter] at hsub2
  have hsub3 : List.Sublist [x, y] (colorEntries buf) :=
    hsub2.trans (List.filter_sublist _)
  have hsub4 : List.Sublist [x.hex, y.hex] ((colorEntries buf).map Color.hex) := by
    simpa using hsub3.map Color.hex
  have hkeys : (colorEntries buf).map Color.hex = distinctColors buf := by
    unfold colorEntries
    rw [List.map_map, ← colorMap_keys buf]
    rfl
  rw [hkeys] at hsub4
  have hpw := List.Pairwise.sublist hsub4
    (pairwise_idxOf_dedupFirstGo (pixelHexList buf) [])
  rw [List.pairwise_cons] at hpw
  exact hpw.1 y.hex (List.mem_singleton.mpr rfl)

/-- Witness for C10 at the concrete tie buffer, positions 0 and 1. -/
theorem claim_C10_witness :
    idxOf ((extractColors tieBuf).get ⟨0, by rw [tieBuf_eval]; norm_num⟩).hex
        (pixelHexList tieBuf) <
      idxOf ((extractColors tieBuf).get ⟨1, by rw [tieBuf_eval]; norm_num⟩).hex
        (pixelHexList tieBuf) :=
  claim_C10.1 tieBuf 0 1 (by omega) (by rw [tieBuf_eval]; norm_num)
    (by simp [tieBuf_eval])

end ColorApp
